import Mathlib

/-!
Shallow embedding of `src/perceval/backends/gerrit.py` (the Gerrit
review-ingestion engine) and proofs about it.

Conventions:
* Python strings are `String` / `List Char`; machine integers are `Nat`
  (the code only holds non-negative counters and sizes).
* The remote command executor is an explicit function parameter
  (a "simulated paginated remote source").
* JSON values are modelled by the inductive `JVal`; `json.dumps`/`json.loads`
  on well-formed data are the encode/decode pairs below.  A file that holds
  text which is not valid JSON (for example the empty string written by
  `_clean_cache`) is modelled by the `FC.invalid` constructor, on which any
  load fails, mirroring Python's `json.loads` raising `ValueError`.
* Raising an exception is modelled by `Option`/`Except` results.
* The unbounded `while` loop of `_get_project_reviews` is given explicit
  fuel; theorems supply enough fuel for the simulated sources.
-/

/-- A JSON value, as produced by `json.loads` / consumed by `json.dumps`. -/
inductive JVal where
  | jnum (n : Nat)
  | jstr (s : String)
  | jarr (xs : List JVal)
  | jobj (fields : List (String × JVal))

/-- A review data row: an entry of a query page that carries a `project`
key.  The opaque `sortKey` field drives the sort-key pagination strategy. -/
structure Review where
  project : String
  sortKey : Nat
deriving DecidableEq, Repr

/-- One newline-delimited entry of a query page, after JSON parsing:
either a data row (has a `project` key) or the trailing control record
(has a `rowCount` key).  This is the case split of lines 312-321. -/
inductive GEntry where
  | data (r : Review)
  | control (rowCount : Nat)
deriving DecidableEq, Repr

/-- `json.dumps` of one review record (the fields the engine relies on). -/
def encodeReview (r : Review) : JVal :=
  JVal.jobj [("project", JVal.jstr r.project), ("sortKey", JVal.jnum r.sortKey)]

/-- `json.loads` of one review record. -/
def decodeReview : JVal → Option Review
  | JVal.jobj [(k1, JVal.jstr p), (k2, JVal.jnum n)] =>
      if k1 = "project" ∧ k2 = "sortKey" then some ⟨p, n⟩ else none
  | _ => none

/-- Decoding of a list of JSON values as review records. -/
def decodeReviewList : List JVal → Option (List Review)
  | [] => some []
  | v :: vs =>
      match decodeReview v, decodeReviewList vs with
      | some r, some rs => some (r :: rs)
      | _, _ => none

/-- `_project_reviews_to_cache` (lines 214-224): the content written to the
per-project cache file, `json.dumps(reviews)`.  Mode `"w"` truncates, so
every call is a full overwrite of the artifact. -/
def project_reviews_to_cache (reviews : List Review) : JVal :=
  JVal.jarr (reviews.map encodeReview)

/-- `_load_cache_project` reading back an existing artifact (lines 161-176):
`json.loads` of the file content, interpreted as review records. -/
def load_cache_project : JVal → Option (List Review)
  | JVal.jarr xs => decodeReviewList xs
  | _ => none

/-- Line 284 / 300 / 315: the version test selecting the offset-based
pagination strategy: `gerrit_version[0] == 2 and gerrit_version[1] >= 9`. -/
def usesOffsetStrategy (v : Nat × Nat) : Bool :=
  v.1 == 2 && 9 ≤ v.2

/-- The `for entry in tickets` body (lines 312-321) under the offset-based
strategy: state is `(reviews, last_item, number_results)`; a data row is
appended and the integer cursor `last_item` is incremented by 1; a control
record overwrites `number_results` with its `rowCount`. -/
def procOff : List GEntry → List Review × Nat × Nat → List Review × Nat × Nat
  | [], st => st
  | GEntry.data r :: es, (revs, li, nr) => procOff es (revs ++ [r], li + 1, nr)
  | GEntry.control c :: es, (revs, li, _) => procOff es (revs, li, c)

/-- The `for entry in tickets` body under the sort-key strategy: a data row
is appended and `last_item` becomes that row's `sortKey`. -/
def procSK : List GEntry → List Review × Option Nat × Nat → List Review × Option Nat × Nat
  | [], st => st
  | GEntry.data r :: es, (revs, _, nr) => procSK es (revs ++ [r], some r.sortKey, nr)
  | GEntry.control c :: es, (revs, li, _) => procSK es (revs, li, c)

/-- A checkpoint trace entry: the in-memory accumulation at the moment
`_project_reviews_to_cache` ran, paired with the file content it wrote. -/
abbrev Checkpoint := List Review × JVal

/-- The `while` loop of `_get_project_reviews` (lines 291-324) specialised
to the offset-based strategy (version 2.>=9), with explicit fuel.
`src start` is the parsed page returned by the remote query
`... limit:P --start=<start>`.  Returns the accumulated reviews together
with the trace of per-page checkpoints written to the cache file. -/
def fetchLoopOffset (src : Nat → List GEntry) (P : Nat) :
    Nat → Nat → Nat → List Review → List Checkpoint → List Review × List Checkpoint
  | 0, _, _, acc, tr => (acc, tr)
  | fuel + 1, li, nres, acc, tr =>
      if nres = P ∨ nres = P + 1 then
        match procOff (src li) (acc, li, nres) with
        | (revs, li2, nres2) =>
            fetchLoopOffset src P fuel li2 nres2 revs
              (tr ++ [(revs, project_reviews_to_cache revs)])
      else (acc, tr)

/-- The same loop specialised to the sort-key strategy (all other versions):
`src none` is the first query (no resume key), `src (some k)` the query
`... resume_sortkey:k`. -/
def fetchLoopSK (src : Option Nat → List GEntry) (P : Nat) :
    Nat → Option Nat → Nat → List Review → List Checkpoint → List Review × List Checkpoint
  | 0, _, _, acc, tr => (acc, tr)
  | fuel + 1, li, nres, acc, tr =>
      if nres = P ∨ nres = P + 1 then
        match procSK (src li) (acc, li, nres) with
        | (revs, li2, nres2) =>
            fetchLoopSK src P fuel li2 nres2 revs
              (tr ++ [(revs, project_reviews_to_cache revs)])
      else (acc, tr)

/-- `_get_project_reviews` (non-cache path, lines 282-328) against a
simulated remote source, dispatching on the detected version exactly as the
code does: `last_item` starts at `0` for the offset strategy and at `None`
for the sort-key strategy, `number_results` starts at `nreviews`. -/
def get_project_reviews (ver : Nat × Nat) (srcOff : Nat → List GEntry)
    (srcSK : Option Nat → List GEntry) (P fuel : Nat) : List Review × List Checkpoint :=
  if usesOffsetStrategy ver then fetchLoopOffset srcOff P fuel 0 P [] []
  else fetchLoopSK srcSK P fuel none P [] []

/-- A simulated remote holding `R` reviews (sortKeys `0..R-1`, in order):
the page starting at row `s` for page size `P`: at most `P` data rows
followed by the control record reporting the page's row count. -/
def simPage (R P s : Nat) : List GEntry :=
  (List.range' s (min P (R - s))).map (fun i => GEntry.data ⟨"p", i⟩)
    ++ [GEntry.control (min P (R - s))]

/-- The simulated source as queried by the offset strategy. -/
def simOffSrc (R P : Nat) : Nat → List GEntry := fun s => simPage R P s

/-- The simulated source as queried by the sort-key strategy: no resume key
means the first page; `resume_sortkey:k` resumes right after sortKey `k`. -/
def simSKSrc (R P : Nat) : Option Nat → List GEntry
  | none => simPage R P 0
  | some k => simPage R P (k + 1)

/-- The full simulated review collection, in remote order. -/
def simReviews (R : Nat) : List Review :=
  (List.range R).map (fun i => ⟨"p", i⟩)

-- Sanity checks on concrete inputs for the simulated fetch.
example : (get_project_reviews (2, 10) (simOffSrc 7 3) (simSKSrc 7 3) 3 9).1 = simReviews 7 := by
  decide
example : (get_project_reviews (2, 8) (simOffSrc 7 3) (simSKSrc 7 3) 3 9).1 = simReviews 7 := by
  decide
example : (get_project_reviews (3, 1) (simOffSrc 6 3) (simSKSrc 6 3) 3 8).1 = simReviews 6 := by
  decide
example : (get_project_reviews (2, 9) (simOffSrc 0 4) (simSKSrc 0 4) 4 2).1 = simReviews 0 := by
  decide

lemma fetchLoopOffset_succ (src : Nat → List GEntry) (P fuel li nres : Nat)
    (acc : List Review) (tr : List Checkpoint) :
    fetchLoopOffset src P (fuel + 1) li nres acc tr =
      if nres = P ∨ nres = P + 1 then
        match procOff (src li) (acc, li, nres) with
        | (revs, li2, nres2) =>
            fetchLoopOffset src P fuel li2 nres2 revs
              (tr ++ [(revs, project_reviews_to_cache revs)])
      else (acc, tr) := rfl

lemma fetchLoopSK_succ (src : Option Nat → List GEntry) (P fuel : Nat) (li : Option Nat)
    (nres : Nat) (acc : List Review) (tr : List Checkpoint) :
    fetchLoopSK src P (fuel + 1) li nres acc tr =
      if nres = P ∨ nres = P + 1 then
        match procSK (src li) (acc, li, nres) with
        | (revs, li2, nres2) =>
            fetchLoopSK src P fuel li2 nres2 revs
              (tr ++ [(revs, project_reviews_to_cache revs)])
      else (acc, tr) := rfl

lemma procOff_data (l : List Nat) : ∀ (acc : List Review) (li nr m : Nat),
    procOff ((l.map fun i => GEntry.data ⟨"p", i⟩) ++ [GEntry.control m]) (acc, li, nr) =
      (acc ++ l.map fun i => Review.mk "p" i, li + l.length, m) := by
  induction l with
  | nil => intro acc li nr m; simp [procOff]
  | cons x xs ih =>
      intro acc li nr m
      simp only [List.map_cons, List.cons_append, procOff, List.append_eq, ih,
        List.length_cons, Prod.mk.injEq]
      exact ⟨by simp, by omega, trivial⟩

lemma procSK_data (l : List Nat) : ∀ (acc : List Review) (li : Option Nat) (nr m : Nat),
    procSK ((l.map fun i => GEntry.data ⟨"p", i⟩) ++ [GEntry.control m]) (acc, li, nr) =
      (acc ++ l.map fun i => Review.mk "p" i, l.foldl (fun _ i => some i) li, m) := by
  induction l with
  | nil => intro acc li nr m; simp [procSK]
  | cons x xs ih =>
      intro acc li nr m
      simp only [List.map_cons, List.cons_append, procSK, List.append_eq, ih,
        List.foldl_cons, Prod.mk.injEq]
      exact ⟨by simp, trivial⟩

lemma range'_foldl_some (s k : Nat) (li : Option Nat) (hk : 1 ≤ k) :
    (List.range' s k).foldl (fun _ i => some i) li = some (s + k - 1) := by
  obtain ⟨k', rfl⟩ : ∃ k', k = k' + 1 := ⟨k - 1, by omega⟩
  rw [List.range'_1_concat, List.foldl_append]
  simp

lemma offStep (R P fuel c nres : Nat) (acc : List Review) (tr : List Checkpoint)
    (h : nres = P ∨ nres = P + 1) :
    ∃ tr', fetchLoopOffset (simOffSrc R P) P (fuel + 1) c nres acc tr =
      fetchLoopOffset (simOffSrc R P) P fuel (c + min P (R - c)) (min P (R - c))
        (acc ++ (List.range' c (min P (R - c))).map (fun i => Review.mk "p" i)) tr' := by
  have hst : procOff (simOffSrc R P c) (acc, c, nres) =
      (acc ++ (List.range' c (min P (R - c))).map (fun i => Review.mk "p" i),
        c + min P (R - c), min P (R - c)) := by
    rw [show simOffSrc R P c =
      (List.range' c (min P (R - c))).map (fun i => GEntry.data ⟨"p", i⟩)
        ++ [GEntry.control (min P (R - c))] from rfl]
    rw [procOff_data]
    simp
  refine ⟨tr ++ [(acc ++ (List.range' c (min P (R - c))).map (fun i => Review.mk "p" i),
    project_reviews_to_cache
      (acc ++ (List.range' c (min P (R - c))).map (fun i => Review.mk "p" i)))], ?_⟩
  rw [fetchLoopOffset_succ, if_pos h, hst]

lemma skStep (R P fuel : Nat) (li : Option Nat) (s nres : Nat) (acc : List Review)
    (tr : List Checkpoint) (h : nres = P ∨ nres = P + 1)
    (hq : simSKSrc R P li = simPage R P s) :
    ∃ tr', fetchLoopSK (simSKSrc R P) P (fuel + 1) li nres acc tr =
      fetchLoopSK (simSKSrc R P) P fuel
        ((List.range' s (min P (R - s))).foldl (fun _ i => some i) li) (min P (R - s))
        (acc ++ (List.range' s (min P (R - s))).map (fun i => Review.mk "p" i)) tr' := by
  have hst : procSK (simSKSrc R P li) (acc, li, nres) =
      (acc ++ (List.range' s (min P (R - s))).map (fun i => Review.mk "p" i),
        (List.range' s (min P (R - s))).foldl (fun _ i => some i) li, min P (R - s)) := by
    rw [hq, show simPage R P s =
      (List.range' s (min P (R - s))).map (fun i => GEntry.data ⟨"p", i⟩)
        ++ [GEntry.control (min P (R - s))] from rfl]
    rw [procSK_data]
  refine ⟨tr ++ [(acc ++ (List.range' s (min P (R - s))).map (fun i => Review.mk "p" i),
    project_reviews_to_cache
      (acc ++ (List.range' s (min P (R - s))).map (fun i => Review.mk "p" i)))], ?_⟩
  rw [fetchLoopSK_succ, if_pos h, hst]

lemma off_inv (R P : Nat) (hP : 0 < P) :
    ∀ fuel, ∀ c acc tr, c ≤ R → R - c + 2 ≤ fuel →
      (fetchLoopOffset (simOffSrc R P) P fuel c P acc tr).1 =
        acc ++ (List.range' c (R - c)).map (fun i => Review.mk "p" i) := by
  intro fuel
  induction fuel with
  | zero => intro c acc tr _ hf; exact absurd hf (by omega)
  | succ fuel ih =>
      intro c acc tr hc hf
      obtain ⟨tr', hstep⟩ := offStep R P fuel c P acc tr (Or.inl rfl)
      rw [hstep]
      by_cases hcase : P ≤ R - c
      · have hk : min P (R - c) = P := Nat.min_eq_left hcase
        rw [hk, ih (c + P) _ tr' (by omega) (by omega)]
        rw [List.append_assoc, ← List.map_append, List.range'_append_1]
        have hPR : R - (c + P) + P = R - c := by omega
        rw [hPR]
      · have hk : min P (R - c) = R - c := Nat.min_eq_right (by omega)
        rw [hk]
        obtain ⟨f, rfl⟩ : ∃ f, fuel = f + 1 := ⟨fuel - 1, by omega⟩
        rw [fetchLoopOffset_succ, if_neg (by omega)]

lemma sk_inv (R P : Nat) (hP : 0 < P) :
    ∀ fuel, ∀ c acc tr, 1 ≤ c → c ≤ R → R - c + 2 ≤ fuel →
      (fetchLoopSK (simSKSrc R P) P fuel (some (c - 1)) P acc tr).1 =
        acc ++ (List.range' c (R - c)).map (fun i => Review.mk "p" i) := by
  intro fuel
  induction fuel with
  | zero => intro c acc tr _ _ hf; exact absurd hf (by omega)
  | succ fuel ih =>
      intro c acc tr hc1 hc hf
      have hq : simSKSrc R P (some (c - 1)) = simPage R P c := by
        show simPage R P (c - 1 + 1) = simPage R P c
        congr 1
        omega
      obtain ⟨tr', hstep⟩ := skStep R P fuel (some (c - 1)) c P acc tr (Or.inl rfl) hq
      rw [hstep]
      by_cases hcase : P ≤ R - c
      · have hk : min P (R - c) = P := Nat.min_eq_left hcase
        rw [hk, range'_foldl_some c P _ hP]
        rw [ih (c + P) _ tr' (by omega) (by omega) (by omega)]
        rw [List.append_assoc, ← List.map_append, List.range'_append_1]
        have hPR : R - (c + P) + P = R - c := by omega
        rw [hPR]
      · have hk : min P (R - c) = R - c := Nat.min_eq_right (by omega)
        rw [hk]
        obtain ⟨f, rfl⟩ : ∃ f, fuel = f + 1 := ⟨fuel - 1, by omega⟩
        rw [fetchLoopSK_succ, if_neg (by omega)]

lemma simReviews_eq_range' (R : Nat) :
    simReviews R = (List.range' 0 R).map (fun i => Review.mk "p" i) := by
  rw [simReviews, List.range_eq_range']

lemma fetchLoopOffset_step (src : Nat → List GEntry) (P fuel li nres : Nat)
    (acc : List Review) (tr : List Checkpoint) (h : nres = P ∨ nres = P + 1) :
    fetchLoopOffset src P (fuel + 1) li nres acc tr =
      fetchLoopOffset src P fuel (procOff (src li) (acc, li, nres)).2.1
        (procOff (src li) (acc, li, nres)).2.2 (procOff (src li) (acc, li, nres)).1
        (tr ++ [((procOff (src li) (acc, li, nres)).1,
          project_reviews_to_cache (procOff (src li) (acc, li, nres)).1)]) := by
  rw [fetchLoopOffset_succ, if_pos h]

lemma fetchLoopSK_step (src : Option Nat → List GEntry) (P fuel : Nat) (li : Option Nat)
    (nres : Nat) (acc : List Review) (tr : List Checkpoint) (h : nres = P ∨ nres = P + 1) :
    fetchLoopSK src P (fuel + 1) li nres acc tr =
      fetchLoopSK src P fuel (procSK (src li) (acc, li, nres)).2.1
        (procSK (src li) (acc, li, nres)).2.2 (procSK (src li) (acc, li, nres)).1
        (tr ++ [((procSK (src li) (acc, li, nres)).1,
          project_reviews_to_cache (procSK (src li) (acc, li, nres)).1)]) := by
  rw [fetchLoopSK_succ, if_pos h]

lemma get_project_reviews_sim (R P : Nat) (hP : 0 < P) (ver : Nat × Nat) :
    (get_project_reviews ver (simOffSrc R P) (simSKSrc R P) P (R + 2)).1 = simReviews R := by
  rw [get_project_reviews]
  by_cases hver : usesOffsetStrategy ver = true
  · rw [if_pos hver]
    have h := off_inv R P hP (R + 2) 0 [] [] (by omega) (by omega)
    rw [h, simReviews_eq_range']
    simp
  · rw [if_neg hver]
    show (fetchLoopSK (simSKSrc R P) P (R + 1 + 1) none P [] []).1 = simReviews R
    have hq : simSKSrc R P none = simPage R P 0 := rfl
    obtain ⟨tr', hstep⟩ := skStep R P (R + 1) none 0 P [] [] (Or.inl rfl) hq
    rw [hstep]
    rcases Nat.lt_or_ge R 1 with hR0 | hR1
    · -- R = 0 : the first page is empty and the loop halts on the next check
      have hR : R = 0 := by omega
      subst hR
      have hk : min P (0 - 0) = 0 := by omega
      rw [hk, fetchLoopSK_succ, if_neg (by omega)]
      simp [simReviews]
    · by_cases hcase : P ≤ R
      · have hk : min P (R - 0) = P := by omega
        rw [hk, range'_foldl_some 0 P _ hP]
        rw [show (0 : Nat) + P - 1 = P - 1 by omega]
        rw [sk_inv R P hP (R + 1) P _ tr' (by omega) (by omega) (by omega)]
        rw [List.nil_append, ← List.map_append]
        rw [show List.range' P (R - P) = List.range' (0 + P) (R - P) by rw [Nat.zero_add]]
        rw [List.range'_append_1, show R - P + P = R by omega, simReviews_eq_range']
      · have hk : min P (R - 0) = R := by omega
        rw [hk, fetchLoopSK_succ, if_neg (by omega)]
        rw [simReviews_eq_range']
        simp

lemma review_mk_inj : Function.Injective (fun i => Review.mk "p" i) := by
  intro a b hab
  simpa using congrArg Review.sortKey hab

/-- C1: against a simulated paginated remote with `R` reviews and page size
`P = nreviews`, `_get_project_reviews` returns exactly the `R` review
records, without duplicates, whichever of the two version-selected cursor
strategies runs (the integer cursor of version `2.>=9`, starting at 0 and
incremented by 1 per consumed data row, or the `sortKey` cursor of all other
versions); the version test of line 284 selects the offset strategy exactly
for major 2, minor >= 9. -/
theorem fetch_returns_all_reviews_no_duplicates (R P : Nat) (ver : Nat × Nat) (hP : 0 < P) :
    (get_project_reviews ver (simOffSrc R P) (simSKSrc R P) P (R + 2)).1 = simReviews R ∧
    (get_project_reviews ver (simOffSrc R P) (simSKSrc R P) P (R + 2)).1.length = R ∧
    (get_project_reviews ver (simOffSrc R P) (simSKSrc R P) P (R + 2)).1.Nodup ∧
    usesOffsetStrategy (2, 9) = true ∧ usesOffsetStrategy (2, 8) = false ∧
    usesOffsetStrategy (3, 0) = false := by
  have h := get_project_reviews_sim R P hP ver
  refine ⟨h, ?_, ?_, rfl, rfl, rfl⟩
  · rw [h, simReviews]
    simp
  · rw [h, simReviews]
    exact List.Nodup.map review_mk_inj (List.nodup_range R)

/-- Witness for C1 at `R = 7`, `P = 3`, version `(2, 9)`. -/
theorem fetch_returns_all_reviews_no_duplicates_witness :
    (0 : Nat) < 3 ∧
    (get_project_reviews (2, 9) (simOffSrc 7 3) (simSKSrc 7 3) 3 (7 + 2)).1 = simReviews 7 ∧
    (get_project_reviews (2, 9) (simOffSrc 7 3) (simSKSrc 7 3) 3 (7 + 2)).1.Nodup :=
  ⟨by decide, (fetch_returns_all_reviews_no_duplicates 7 3 (2, 9) (by decide)).1,
    (fetch_returns_all_reviews_no_duplicates 7 3 (2, 9) (by decide)).2.2.1⟩

/-- A simulated deployment whose first page reports `rowCount = 4 = 3 + 1`
rows for `nreviews = 3` (the "wikimedia returns limit+1" quirk) and whose
second page holds one marker row with `rowCount = 1`. -/
def quirkOffSrc : Nat → List GEntry := fun s =>
  if s = 0 then (List.range' 0 4).map (fun i => GEntry.data ⟨"p", i⟩) ++ [GEntry.control 4]
  else [GEntry.data ⟨"p", 100⟩, GEntry.control 1]

/-- C2: the `while` loop of `_get_project_reviews` (line 295) issues another
page query exactly when the last recorded `rowCount` equals `nreviews` or
`nreviews + 1`, and otherwise returns the accumulated sequence unchanged —
for both strategies.  The last conjunct runs the loop against a source whose
first page reports exactly `nreviews + 1 = 4` rows: the loop continues (the
marker row 100 from the second page is consumed) and returns once the
reported count, 1, drops below the threshold. -/
theorem pagination_termination_predicate (P : Nat) :
    (∀ (src : Nat → List GEntry) (fuel li nres : Nat) (acc : List Review) (tr : List Checkpoint),
      fetchLoopOffset src P (fuel + 1) li nres acc tr =
        if nres = P ∨ nres = P + 1 then
          match procOff (src li) (acc, li, nres) with
          | (revs, li2, nres2) =>
              fetchLoopOffset src P fuel li2 nres2 revs
                (tr ++ [(revs, project_reviews_to_cache revs)])
        else (acc, tr)) ∧
    (∀ (src : Option Nat → List GEntry) (fuel : Nat) (li : Option Nat) (nres : Nat)
        (acc : List Review) (tr : List Checkpoint),
      fetchLoopSK src P (fuel + 1) li nres acc tr =
        if nres = P ∨ nres = P + 1 then
          match procSK (src li) (acc, li, nres) with
          | (revs, li2, nres2) =>
              fetchLoopSK src P fuel li2 nres2 revs
                (tr ++ [(revs, project_reviews_to_cache revs)])
        else (acc, tr)) ∧
    (fetchLoopOffset quirkOffSrc 3 10 0 3 [] []).1 =
      [⟨"p", 0⟩, ⟨"p", 1⟩, ⟨"p", 2⟩, ⟨"p", 3⟩, ⟨"p", 100⟩] := by
  refine ⟨fun src fuel li nres acc tr => fetchLoopOffset_succ src P fuel li nres acc tr,
    fun src fuel li nres acc tr => fetchLoopSK_succ src P fuel li nres acc tr, by decide⟩

lemma decodeReview_encodeReview (r : Review) : decodeReview (encodeReview r) = some r := by
  simp [encodeReview, decodeReview]

lemma decodeReviewList_encode (l : List Review) :
    decodeReviewList (l.map encodeReview) = some l := by
  induction l with
  | nil => rfl
  | cons r rs ih => simp [decodeReviewList, decodeReview_encodeReview, ih]

/-- Reading back `json.dumps(reviews)` returns exactly `reviews`. -/
lemma load_cache_roundtrip (l : List Review) :
    load_cache_project (project_reviews_to_cache l) = some l := by
  simp [load_cache_project, project_reviews_to_cache, decodeReviewList_encode]

lemma offLoop_checkpoints (src : Nat → List GEntry) (P : Nat) :
    ∀ fuel li nres (acc : List Review) (tr : List Checkpoint),
      (∀ pr ∈ tr, load_cache_project pr.2 = some pr.1) →
      ∀ pr ∈ (fetchLoopOffset src P fuel li nres acc tr).2,
        load_cache_project pr.2 = some pr.1 := by
  intro fuel
  induction fuel with
  | zero => intro li nres acc tr h pr hpr; exact h pr hpr
  | succ fuel ih =>
      intro li nres acc tr h pr hpr
      by_cases hc : nres = P ∨ nres = P + 1
      · rw [fetchLoopOffset_step src P fuel li nres acc tr hc] at hpr
        refine ih _ _ _ _ ?_ pr hpr
        intro q hq
        rcases List.mem_append.mp hq with hq | hq
        · exact h q hq
        · have hq1 := List.mem_singleton.mp hq
          subst hq1
          exact load_cache_roundtrip _
      · rw [fetchLoopOffset_succ, if_neg hc] at hpr
        exact h pr hpr

lemma skLoop_checkpoints (src : Option Nat → List GEntry) (P : Nat) :
    ∀ fuel (li : Option Nat) nres (acc : List Review) (tr : List Checkpoint),
      (∀ pr ∈ tr, load_cache_project pr.2 = some pr.1) →
      ∀ pr ∈ (fetchLoopSK src P fuel li nres acc tr).2,
        load_cache_project pr.2 = some pr.1 := by
  intro fuel
  induction fuel with
  | zero => intro li nres acc tr h pr hpr; exact h pr hpr
  | succ fuel ih =>
      intro li nres acc tr h pr hpr
      by_cases hc : nres = P ∨ nres = P + 1
      · rw [fetchLoopSK_step src P fuel li nres acc tr hc] at hpr
        refine ih _ _ _ _ ?_ pr hpr
        intro q hq
        rcases List.mem_append.mp hq with hq | hq
        · exact h q hq
        · have hq1 := List.mem_singleton.mp hq
          subst hq1
          exact load_cache_roundtrip _
      · rw [fetchLoopSK_succ, if_neg hc] at hpr
        exact h pr hpr

/-- C4: after every page, the per-project artifact written by
`_project_reviews_to_cache` (a full overwrite of `json.dumps(reviews)`),
when reloaded with `_load_cache_project`, equals the in-memory accumulated
sequence at that point — for every remote source and both strategies.  Each
checkpoint of the loop's trace pairs the in-memory sequence with the file
content written at that moment. -/
theorem checkpoint_reload_equals_memory :
    (∀ (src : Nat → List GEntry) (P fuel li nres : Nat) (acc : List Review),
      ∀ pr ∈ (fetchLoopOffset src P fuel li nres acc []).2,
        load_cache_project pr.2 = some pr.1) ∧
    (∀ (src : Option Nat → List GEntry) (P fuel : Nat) (li : Option Nat) (nres : Nat)
        (acc : List Review),
      ∀ pr ∈ (fetchLoopSK src P fuel li nres acc []).2,
        load_cache_project pr.2 = some pr.1) :=
  ⟨fun src P fuel li nres acc =>
      offLoop_checkpoints src P fuel li nres acc [] (fun q hq => absurd hq (List.not_mem_nil q)),
    fun src P fuel li nres acc =>
      skLoop_checkpoints src P fuel li nres acc [] (fun q hq => absurd hq (List.not_mem_nil q))⟩

/-- Witness for C4: the first checkpoint of a concrete simulated run. -/
theorem checkpoint_reload_equals_memory_witness :
    load_cache_project (project_reviews_to_cache [Review.mk "p" 0]) = some [Review.mk "p" 0] :=
  checkpoint_reload_equals_memory.1 (simOffSrc 2 1) 1 4 0 1 []
    ([Review.mk "p" 0], project_reviews_to_cache [Review.mk "p" 0])
    (List.mem_cons_self _ _)

/-- `get_reviews` (lines 338-372): iterate the discovered projects in order,
append each project's reviews to the global accumulator `self.reviews`, and
`break` as soon as `len(self.reviews) >= self.max_reviews` (line 362), so
the remaining projects are never fetched; the capacity condition is only
logged, and the accumulator is returned normally.  The second component
instruments the loop with the list of projects actually fetched. -/
def get_reviews (fetch : String → List Review) (maxReviews : Nat) :
    List String → List Review → List Review × List String
  | [], acc => (acc, [])
  | p :: rest, acc =>
      if maxReviews ≤ (acc ++ fetch p).length then (acc ++ fetch p, [p])
      else
        match get_reviews fetch maxReviews rest (acc ++ fetch p) with
        | (res, visited) => (res, p :: visited)

/-- C3: the ingestion loop checks the accumulator size after each project
and stops immediately once it reaches `maxReviews`, returning the
accumulator without visiting the remaining projects; with `maxReviews = 10`
and three projects of 6 reviews each, it returns exactly the 12 records of
the first two projects and never fetches the third. -/
theorem ingestion_loop_capacity_cap :
    (∀ (fetch : String → List Review) (maxR : Nat) (p : String) (rest : List String)
        (acc : List Review),
      maxR ≤ (acc ++ fetch p).length →
        get_reviews fetch maxR (p :: rest) acc = (acc ++ fetch p, [p])) ∧
    (∀ (fetch : String → List Review) (a b c : String),
      (fetch a).length = 6 → (fetch b).length = 6 →
        get_reviews fetch 10 [a, b, c] [] = (fetch a ++ fetch b, [a, b]) ∧
        (get_reviews fetch 10 [a, b, c] []).1.length = 12) := by
  constructor
  · intro fetch maxR p rest acc h
    rw [get_reviews, if_pos h]
  · intro fetch a b c ha hb
    have h1 : ¬ (10 ≤ (([] : List Review) ++ fetch a).length) := by
      rw [List.nil_append, ha]
      omega
    have h2 : 10 ≤ ((([] : List Review) ++ fetch a) ++ fetch b).length := by
      rw [List.nil_append, List.length_append, ha, hb]
      omega
    have hrun : get_reviews fetch 10 [a, b, c] [] = (fetch a ++ fetch b, [a, b]) := by
      rw [get_reviews, if_neg h1, get_reviews, if_pos h2, List.nil_append]
    refine ⟨hrun, ?_⟩
    rw [hrun, List.length_append, ha, hb]

/-- Witness for C3 with three concrete projects of 6 reviews each. -/
theorem ingestion_loop_capacity_cap_witness :
    ((simReviews 6).length = 6 ∧ (simReviews 6).length = 6 ∧
      get_reviews (fun _ => simReviews 6) 10 ["p1", "p2", "p3"] [] =
        (simReviews 6 ++ simReviews 6, ["p1", "p2"])) ∧
    (5 ≤ (([] : List Review) ++ (fun _ => simReviews 6) "q").length ∧
      get_reviews (fun _ => simReviews 6) 5 ["q", "r"] [] =
        ([] ++ simReviews 6, ["q"])) :=
  ⟨⟨by decide, by decide,
      (ingestion_loop_capacity_cap.2 (fun _ => simReviews 6) "p1" "p2" "p3"
        (by decide) (by decide)).1⟩,
    ⟨by decide,
      ingestion_loop_capacity_cap.1 (fun _ => simReviews 6) 5 "q" ["r"] [] (by decide)⟩⟩

/-- The content of a file on disk: absent (`open` raises `FileNotFoundError`),
present but not valid JSON (`json.loads` raises `ValueError`; `_clean_cache`
writes the empty string, which is such content), or a serialized JSON value
(written by `json.dumps`, read back by `json.loads`). -/
inductive FC where
  | missing
  | invalid (s : String)
  | val (v : JVal)

/-- Reading and JSON-parsing a file: `none` models the raised exception
(either `FileNotFoundError` on `open` or `ValueError` in `json.loads`). -/
def jsonLoadFC : FC → Option JVal
  | FC.missing => none
  | FC.invalid _ => none
  | FC.val v => some v

/-- The mutable engine state touched by the constructor and the cache and
history operations: the two flags, the `cache_projects.json` file, the
in-memory `self.cache['projects']` entry (`none` = key absent), the review
accumulator `self.reviews`, and the `self.issues` attribute that only
`_restore` assigns. -/
structure GerritState where
  use_cache : Bool
  use_history : Bool
  cacheProjectsFile : FC
  cacheProjectsMem : Option JVal
  reviews : List Review
  issues : Option JVal

/-- `_clean_cache` (lines 179-193): writes the empty string over
`cache_projects.json` and resets `self.cache['projects']` to `[]`. -/
def clean_cache (st : GerritState) : GerritState :=
  { st with cacheProjectsFile := FC.invalid "", cacheProjectsMem := some (JVal.jarr []) }

/-- `_load_cache` (lines 137-146): reads `cache_projects.json` and stores
`json.loads` of its content in `self.cache['projects']`; `none` models the
exception escaping when the file is absent or unparseable. -/
def load_cache (st : GerritState) : Option GerritState :=
  match jsonLoadFC st.cacheProjectsFile with
  | some v => some { st with cacheProjectsMem := some v }
  | none => none

/-- `_restore` (lines 105-121): if `reviews.json` exists, `self.issues`
becomes `json.loads` of its content; a `ValueError` (malformed dump) is
caught and only logged; a missing file is skipped.  Note the code assigns
`self.issues`, not `self.reviews`. -/
def gerrit_restore (st : GerritState) (dumpFile : FC) : GerritState :=
  match dumpFile with
  | FC.missing => st
  | FC.invalid _ => st
  | FC.val v => { st with issues := some v }

/-- `Gerrit.__init__` (lines 45-89), state-relevant part: `use_history` is
forced off when `use_cache` is set; in history mode `_restore` runs; in
cache mode `_load_cache` runs and any failure is caught, turning off
`use_cache` and cleaning the cache; otherwise the cache is cleaned.  The
function is total: no exception reaches the caller. -/
def gerritInit (use_cache history : Bool) (projFile dumpFile : FC) : GerritState :=
  let st0 : GerritState :=
    { use_cache := use_cache
      use_history := if use_cache then false else history
      cacheProjectsFile := projFile
      cacheProjectsMem := none
      reviews := []
      issues := none }
  if st0.use_history then gerrit_restore st0 dumpFile
  else if use_cache then
    match load_cache st0 with
    | some st => st
    | none => clean_cache { st0 with use_cache := false }
  else clean_cache st0

/-- C5: if loading the cache fails for any reason during construction with
cache-reuse requested, the engine disables cache-reuse, resets the cache
store exactly as `_clean_cache` does (empty-string project-list artifact,
empty in-memory project list), and the constructor still returns a state —
the exception is swallowed, not propagated. -/
theorem init_cache_corruption_fallback (projFile dumpFile : FC) (history : Bool)
    (hfail : jsonLoadFC projFile = none) :
    (gerritInit true history projFile dumpFile).use_cache = false ∧
    (gerritInit true history projFile dumpFile).cacheProjectsFile = FC.invalid "" ∧
    (gerritInit true history projFile dumpFile).cacheProjectsMem = some (JVal.jarr []) := by
  have hload : load_cache
      { use_cache := true, use_history := false,
        cacheProjectsFile := projFile, cacheProjectsMem := none,
        reviews := [], issues := none } = none := by
    rw [load_cache]
    simp only [hfail]
  rw [gerritInit]
  simp only [if_true, if_false, Bool.false_eq_true, ite_false]
  rw [hload]
  exact ⟨rfl, rfl, rfl⟩

/-- Witness for C5: a corrupted (non-JSON) `cache_projects.json`. -/
theorem init_cache_corruption_fallback_witness :
    jsonLoadFC (FC.invalid "garbage") = none ∧
    (gerritInit true false (FC.invalid "garbage") FC.missing).use_cache = false ∧
    (gerritInit true false (FC.invalid "garbage") FC.missing).cacheProjectsFile =
      FC.invalid "" ∧
    (gerritInit true false (FC.invalid "garbage") FC.missing).cacheProjectsMem =
      some (JVal.jarr []) :=
  ⟨rfl, init_cache_corruption_fallback (FC.invalid "garbage") FC.missing false rfl⟩

/-- C6 (code bug): in history mode a successful restore stores the dumped
content in `self.issues`, while the review result set `self.reviews` — the
value `get_reviews` accumulates into and returns — stays empty, so the
restored reviews are not what the engine subsequently returns.  Evaluated
at a concrete well-formed dump of one review; the malformed-dump half of
the claim (warning, in-memory result left empty, no exception) does hold,
as the last two conjuncts show. -/
theorem restore_fills_issues_not_reviews :
    (gerritInit false true (FC.invalid "")
        (FC.val (JVal.jarr [encodeReview ⟨"p", 1⟩]))).issues =
      some (JVal.jarr [encodeReview ⟨"p", 1⟩]) ∧
    (gerritInit false true (FC.invalid "")
        (FC.val (JVal.jarr [encodeReview ⟨"p", 1⟩]))).reviews = [] ∧
    get_reviews (fun _ => [])
      1000
      []
      (gerritInit false true (FC.invalid "")
        (FC.val (JVal.jarr [encodeReview ⟨"p", 1⟩]))).reviews = ([], []) ∧
    (gerritInit false true (FC.invalid "") (FC.invalid "broken")).issues = none ∧
    (gerritInit false true (FC.invalid "") (FC.invalid "broken")).reviews = [] :=
  ⟨rfl, rfl, rfl, rfl, rfl⟩

/-- C10: `_clean_cache` leaves `cache_projects.json` holding the empty
string, which `json.loads` cannot parse, so every subsequent `_load_cache`
fails exactly as it does on a corrupt artifact, while the in-memory cache
entry is reset to the empty list. -/
theorem clean_cache_makes_cache_unreadable (st : GerritState) (s : String) :
    (clean_cache st).cacheProjectsFile = FC.invalid "" ∧
    jsonLoadFC (clean_cache st).cacheProjectsFile = none ∧
    load_cache (clean_cache st) = none ∧
    jsonLoadFC (FC.invalid s) = none ∧
    (clean_cache st).cacheProjectsMem = some (JVal.jarr []) :=
  ⟨rfl, rfl, rfl, rfl, rfl⟩

/-- Python `str.split("\n")` (line 261): split on every newline occurrence;
the empty string yields `[""]`, and a trailing newline yields a trailing
empty segment. -/
def pySplitNl : List Char → List (List Char)
  | [] => [[]]
  | c :: cs =>
      if c = '\n' then [] :: pySplitNl cs
      else
        match pySplitNl cs with
        | [] => [[c]]
        | g :: gs => (c :: g) :: gs

/-- `_get_projects`, remote (non-cache) path (lines 256-264): split the raw
`ls-projects` output on newlines and `pop()` the final segment
unconditionally, whatever it holds. -/
def get_projects_remote (raw : List Char) : List (List Char) :=
  (pySplitNl raw).dropLast

lemma pySplitNl_ne_nil : ∀ cs : List Char, pySplitNl cs ≠ []
  | [] => by simp [pySplitNl]
  | c :: cs => by
      by_cases hc : c = '\n'
      · simp [pySplitNl, hc]
      · rcases hne : pySplitNl cs with _ | ⟨g, gs⟩ <;> simp [pySplitNl, hc, hne]

lemma pySplitNl_append_nl : ∀ s : List Char, pySplitNl (s ++ ['\n']) = pySplitNl s ++ [[]] := by
  intro s
  induction s with
  | nil => simp [pySplitNl]
  | cons c s ih =>
      by_cases hc : c = '\n'
      · subst hc
        simp [pySplitNl, ih]
      · rcases hne : pySplitNl s with _ | ⟨g, gs⟩
        · exact absurd hne (pySplitNl_ne_nil s)
        · simp [pySplitNl, hc, ih, hne]

lemma pySplitNl_last_of_ne_nl : ∀ (s : List Char) (c : Char), c ≠ '\n' →
    ∃ g, (pySplitNl (s ++ [c])).getLast? = some (g ++ [c]) := by
  intro s
  induction s with
  | nil =>
      intro c hc
      refine ⟨[], ?_⟩
      simp [pySplitNl, hc]
  | cons a s ih =>
      intro c hc
      obtain ⟨g, hg⟩ := ih c hc
      by_cases ha : a = '\n'
      · subst ha
        refine ⟨g, ?_⟩
        rw [List.cons_append]
        rcases hsp : pySplitNl (s ++ [c]) with _ | ⟨x, xs⟩
        · exact absurd hsp (pySplitNl_ne_nil _)
        · rw [show pySplitNl ('\n' :: (s ++ [c])) = [] :: pySplitNl (s ++ [c]) by
            simp [pySplitNl]]
          rw [hsp, List.getLast?_cons_cons, ← hsp, hg]
      · rcases hsp : pySplitNl (s ++ [c]) with _ | ⟨x, xs⟩
        · exact absurd hsp (pySplitNl_ne_nil _)
        · have hred : pySplitNl (a :: (s ++ [c])) = (a :: x) :: xs := by
            simp [pySplitNl, ha, hsp]
          rcases xs with _ | ⟨y, ys⟩
          · refine ⟨a :: g, ?_⟩
            rw [List.cons_append, hred]
            rw [hsp, List.getLast?_singleton] at hg
            have hx : x = g ++ [c] := Option.some.inj hg
            rw [List.getLast?_singleton, hx]
            rfl
          · refine ⟨g, ?_⟩
            rw [List.cons_append, hred, List.getLast?_cons_cons]
            rw [hsp, List.getLast?_cons_cons] at hg
            exact hg

/-- C9: the remote path of `_get_projects` always discards the final
newline-separated segment: a newline-terminated response yields exactly the
split of the part before the final newline; a non-empty response without a
trailing newline loses its last (non-empty) segment — the last real project
identifier; the empty response yields the empty list. -/
theorem get_projects_drops_last_segment :
    (∀ s : List Char, get_projects_remote (s ++ ['\n']) = pySplitNl s) ∧
    (∀ (s : List Char) (c : Char), c ≠ '\n' →
      get_projects_remote (s ++ [c]) = (pySplitNl (s ++ [c])).dropLast ∧
      ∃ g, (pySplitNl (s ++ [c])).getLast? = some (g ++ [c]) ∧ g ++ [c] ≠ []) ∧
    get_projects_remote [] = [] := by
  refine ⟨?_, ?_, rfl⟩
  · intro s
    rw [get_projects_remote, pySplitNl_append_nl, List.dropLast_concat]
  · intro s c hc
    obtain ⟨g, hg⟩ := pySplitNl_last_of_ne_nl s c hc
    exact ⟨rfl, g, hg, by simp⟩

/-- Witness for C9: `"p1\np2"` (no trailing newline) loses `p2`;
`"p1\np2\n"` keeps both segments. -/
theorem get_projects_drops_last_segment_witness :
    (get_projects_remote ("p1\np".toList ++ ['2']) =
        (pySplitNl ("p1\np".toList ++ ['2'])).dropLast ∧
      ∃ g, (pySplitNl ("p1\np".toList ++ ['2'])).getLast? = some (g ++ ['2']) ∧
        g ++ ['2'] ≠ []) ∧
    get_projects_remote ("p1\np2".toList ++ ['\n']) = pySplitNl "p1\np2".toList :=
  ⟨get_projects_drops_last_segment.2.1 "p1\np".toList '2' (by decide),
    get_projects_drops_last_segment.1 "p1\np2".toList⟩

/-- The literal part of the regex `gerrit version (\d+)\.(\d+).*`
(line 233, anchored at the start by `re.match`). -/
def bannerLit : List Char := "gerrit version ".toList

/-- Strip an exact literal prefix, or fail. -/
def dropLit : List Char → List Char → Option (List Char)
  | [], rest => some rest
  | _ :: _, [] => none
  | p :: ps, c :: cs => if c = p then dropLit ps cs else none

/-- Base-10 value of a digit run, as Python's `int()` reads a group. -/
def digitsVal (ds : List Char) : Nat :=
  ds.foldl (fun a c => 10 * a + (c.toNat - 48)) 0

/-- `re.match("gerrit version (\d+)\.(\d+).*", s)` followed by `int()` on
the two groups (lines 233-245).  The trailing `.*` always matches, and the
greedy `\d+` groups are the maximal digit runs, so the pattern succeeds
exactly on strings starting with the literal, one or more digits, a dot,
and one or more digits. -/
def parseVersionChars (cs : List Char) : Option (Nat × Nat) :=
  match dropLit bannerLit cs with
  | none => none
  | some rest =>
      if rest.takeWhile Char.isDigit = [] then none
      else
        match rest.dropWhile Char.isDigit with
        | '.' :: r2 =>
            if r2.takeWhile Char.isDigit = [] then none
            else some (digitsVal (rest.takeWhile Char.isDigit),
              digitsVal (r2.takeWhile Char.isDigit))
        | _ => none

/-- `_get_version` (lines 226-245): banner parsing; the raised
`Exception("Invalid gerrit version ...")` is the error value. -/
def get_version (s : String) : Except String (Nat × Nat) :=
  match parseVersionChars s.toList with
  | some mm => Except.ok mm
  | none => Except.error ("Invalid gerrit version " ++ s)

/-- The language of the version regex with group values `(M, m)`: the
literal, a nonempty digit run for `M`, a dot, a nonempty digit run for `m`,
then an arbitrary tail that does not extend the second run. -/
def VersionBanner (cs : List Char) (M m : Nat) : Prop :=
  ∃ d1 d2 rest, cs = bannerLit ++ (d1 ++ '.' :: (d2 ++ rest)) ∧
    d1 ≠ [] ∧ d2 ≠ [] ∧ (∀ c ∈ d1, c.isDigit) ∧ (∀ c ∈ d2, c.isDigit) ∧
    (∀ c, rest.head? = some c → ¬ c.isDigit) ∧
    M = digitsVal d1 ∧ m = digitsVal d2

lemma dropLit_iff : ∀ (p cs r : List Char), dropLit p cs = some r ↔ cs = p ++ r
  | [], cs, r => by simp [dropLit]
  | p :: ps, [], r => by simp [dropLit]
  | p :: ps, c :: cs, r => by
      rw [dropLit]
      by_cases hc : c = p
      · subst hc
        rw [if_pos rfl, dropLit_iff ps cs r]
        simp
      · rw [if_neg hc]
        simp [hc]

lemma takeWhile_of_split (p : Char → Bool) : ∀ (l r : List Char),
    (∀ c ∈ l, p c) → (∀ c, r.head? = some c → ¬ p c) →
    (l ++ r).takeWhile p = l ∧ (l ++ r).dropWhile p = r := by
  intro l
  induction l with
  | nil =>
      intro r _ hr
      rcases r with _ | ⟨c, r'⟩
      · exact ⟨rfl, rfl⟩
      · have hc : ¬ p c := hr c rfl
        simp only [List.nil_append, List.takeWhile_cons, List.dropWhile_cons]
        rw [if_neg hc, if_neg hc]
        exact ⟨rfl, rfl⟩
  | cons x l ih =>
      intro r hl hr
      have hx : p x := hl x (List.mem_cons_self x l)
      obtain ⟨h1, h2⟩ := ih r (fun c hc => hl c (List.mem_cons_of_mem x hc)) hr
      simp only [List.cons_append, List.takeWhile_cons, List.dropWhile_cons]
      rw [if_pos hx, if_pos hx, h1, h2]
      exact ⟨rfl, rfl⟩

lemma head?_dropWhile_false (p : Char → Bool) (l : List Char) (c : Char)
    (h : (l.dropWhile p).head? = some c) : ¬ p c := by
  have hd := List.head?_dropWhile_not p l
  rw [h] at hd
  simp only [hd]
  exact Bool.false_ne_true

lemma parseVersionChars_some_iff (cs : List Char) (M m : Nat) :
    parseVersionChars cs = some (M, m) ↔ VersionBanner cs M m := by
  constructor
  · intro hp
    rw [parseVersionChars] at hp
    split at hp
    · simp at hp
    · rename_i rest hdrop
      have hcs : cs = bannerLit ++ rest := (dropLit_iff bannerLit cs rest).mp hdrop
      split at hp
      · simp at hp
      · rename_i hd1
        split at hp
        · rename_i r2 hdw
          split at hp
          · simp at hp
          · rename_i hd2
            have hMm := Option.some.inj hp
            refine ⟨rest.takeWhile Char.isDigit, r2.takeWhile Char.isDigit,
              r2.dropWhile Char.isDigit, ?_, hd1, hd2, ?_, ?_, ?_, ?_, ?_⟩
            · rw [hcs]
              refine congrArg _ ?_
              rw [List.takeWhile_append_dropWhile Char.isDigit r2]
              rw [← hdw, List.takeWhile_append_dropWhile]
            · exact fun c hc => List.mem_takeWhile_imp hc
            · exact fun c hc => List.mem_takeWhile_imp hc
            · exact fun c hc => head?_dropWhile_false Char.isDigit r2 c hc
            · exact (congrArg Prod.fst hMm).symm
            · exact (congrArg Prod.snd hMm).symm
        · simp at hp
  · rintro ⟨d1, d2, rest, hcs, hd1, hd2, hdig1, hdig2, hrest, hM, hm⟩
    subst hcs
    subst hM
    subst hm
    have hdrop : dropLit bannerLit (bannerLit ++ (d1 ++ '.' :: (d2 ++ rest)))
        = some (d1 ++ '.' :: (d2 ++ rest)) := (dropLit_iff _ _ _).mpr rfl
    have hdot : ∀ c : Char, ('.' :: (d2 ++ rest)).head? = some c → ¬ c.isDigit := by
      intro c hc
      have hcd : c = '.' := by
        injection hc with h
        exact h.symm
      subst hcd
      decide
    have hsplit1 := takeWhile_of_split Char.isDigit d1 ('.' :: (d2 ++ rest)) hdig1 hdot
    have hsplit2 := takeWhile_of_split Char.isDigit d2 rest hdig2 hrest
    simp only [parseVersionChars, hdrop, hsplit1.1, hsplit1.2, hsplit2.1,
      if_neg hd1, if_neg hd2]

/-- The ASCII digit character for a value below ten. -/
def digitChar10 : Nat → Char
  | 0 => '0'
  | 1 => '1'
  | 2 => '2'
  | 3 => '3'
  | 4 => '4'
  | 5 => '5'
  | 6 => '6'
  | 7 => '7'
  | 8 => '8'
  | _ => '9'

/-- Standard base-10 rendering of a natural number, used to build banners
`gerrit version <major>.<minor>...` from numeric versions. -/
def natToDigits (n : Nat) : List Char :=
  if n < 10 then [digitChar10 n]
  else natToDigits (n / 10) ++ [digitChar10 (n % 10)]
termination_by n
decreasing_by
  exact Nat.div_lt_self (by omega) (by omega)

lemma digitChar10_isDigit : ∀ n : Nat, (digitChar10 n).isDigit
  | 0 => by decide
  | 1 => by decide
  | 2 => by decide
  | 3 => by decide
  | 4 => by decide
  | 5 => by decide
  | 6 => by decide
  | 7 => by decide
  | 8 => by decide
  | n + 9 => by
      show ('9' : Char).isDigit = true
      decide

lemma digitChar10_val (n : Nat) (h : n < 10) : (digitChar10 n).toNat - 48 = n := by
  interval_cases n <;> decide

lemma digitsVal_append (l : List Char) (c : Char) :
    digitsVal (l ++ [c]) = 10 * digitsVal l + (c.toNat - 48) := by
  simp [digitsVal, List.foldl_append]

lemma natToDigits_ne_nil (n : Nat) : natToDigits n ≠ [] := by
  rw [natToDigits]
  split <;> simp

lemma natToDigits_all_digit (n : Nat) : ∀ c ∈ natToDigits n, c.isDigit := by
  induction n using Nat.strong_induction_on with
  | _ n ih =>
      rw [natToDigits]
      split
      · intro c hc
        rw [List.mem_singleton] at hc
        subst hc
        exact digitChar10_isDigit n
      · intro c hc
        rcases List.mem_append.mp hc with hc | hc
        · exact ih (n / 10) (Nat.div_lt_self (by omega) (by omega)) c hc
        · rw [List.mem_singleton] at hc
          subst hc
          exact digitChar10_isDigit _

/-- Base-10 rendering round-trips through the regex-group evaluation. -/
lemma digitsVal_natToDigits (n : Nat) : digitsVal (natToDigits n) = n := by
  induction n using Nat.strong_induction_on with
  | _ n ih =>
      rw [natToDigits]
      split
      · rename_i h
        show digitsVal ([] ++ [digitChar10 n]) = n
        rw [digitsVal_append, digitChar10_val n h]
        have h0 : digitsVal [] = 0 := rfl
        rw [h0]
        omega
      · rename_i h
        rw [digitsVal_append, ih (n / 10) (Nat.div_lt_self (by omega) (by omega)),
          digitChar10_val (n % 10) (by omega)]
        omega

/-- C7: `_get_version` succeeds with the integer pair `(major, minor)`
exactly on banners of the form `gerrit version <major>.<minor>...` (the
regex's language), and on every other string it fails with the
`Invalid gerrit version` error (a pure function: no other effect).  The
last conjunct instantiates the success case on banners built from arbitrary
numerals by base-10 rendering. -/
theorem get_version_banner_characterization :
    (∀ (s : String) (M m : Nat),
      get_version s = Except.ok (M, m) ↔ VersionBanner s.toList M m) ∧
    (∀ s : String,
      get_version s = Except.error ("Invalid gerrit version " ++ s) ∨
        ∃ M m, VersionBanner s.toList M m) ∧
    (∀ (M m : Nat) (rest : List Char), (∀ c, rest.head? = some c → ¬ c.isDigit) →
      parseVersionChars (bannerLit ++ (natToDigits M ++ '.' :: (natToDigits m ++ rest))) =
        some (M, m)) := by
  refine ⟨?_, ?_, ?_⟩
  · intro s M m
    rw [get_version]
    rcases hps : parseVersionChars s.toList with _ | mm
    · constructor
      · intro h
        exact absurd h (by simp)
      · intro hb
        have := (parseVersionChars_some_iff s.toList M m).mpr hb
        rw [hps] at this
        exact absurd this (by simp)
    · constructor
      · intro h
        have hmm : mm = (M, m) := Except.ok.inj h
        subst hmm
        exact (parseVersionChars_some_iff s.toList M m).mp hps
      · intro hb
        have := (parseVersionChars_some_iff s.toList M m).mpr hb
        rw [hps] at this
        rw [Option.some.inj this]
  · intro s
    rcases hps : parseVersionChars s.toList with _ | ⟨M, m⟩
    · left
      rw [get_version, hps]
    · right
      exact ⟨M, m, (parseVersionChars_some_iff s.toList M m).mp hps⟩
  · intro M m rest hrest
    refine (parseVersionChars_some_iff _ M m).mpr
      ⟨natToDigits M, natToDigits m, rest, rfl, natToDigits_ne_nil M, natToDigits_ne_nil m,
        natToDigits_all_digit M, natToDigits_all_digit m, hrest,
        (digitsVal_natToDigits M).symm, (digitsVal_natToDigits m).symm⟩

/-- Witness for C7: the documented banner of line 232 parses to `(2, 10)`;
a built banner for `(2, 9)` with tail `"-rc1"` parses back to `(2, 9)`;
a non-banner string yields the error. -/
theorem get_version_banner_characterization_witness :
    get_version "gerrit version 2.10-rc1-988-g333a9dd" = Except.ok (2, 10) ∧
    parseVersionChars
      (bannerLit ++ (natToDigits 2 ++ '.' :: (natToDigits 9 ++ "-rc1".toList))) =
      some (2, 9) ∧
    (get_version "flamingo" =
        Except.error ("Invalid gerrit version " ++ "flamingo") ∨
      ∃ M m, VersionBanner "flamingo".toList M m) :=
  ⟨(get_version_banner_characterization.1 "gerrit version 2.10-rc1-988-g333a9dd" 2 10).mpr
      ⟨['2'], ['1', '0'], "-rc1-988-g333a9dd".toList, by decide, by decide, by decide,
        by decide, by decide, by decide, by decide, by decide⟩,
    get_version_banner_characterization.2.2 2 9 "-rc1".toList (by decide),
    get_version_banner_characterization.2.1 "flamingo"⟩

/-- `raw_data.replace("\n", ",")` (line 307): a single-character pattern, so
the global replacement is a character-wise map. -/
def replaceNlComma (cs : List Char) : List Char :=
  cs.map (fun c => if c = '\n' then ',' else c)

/-- `tickets_raw.replace(",]", "]")` (line 308): Python's left-to-right,
non-overlapping, global replacement of the two-character pattern `",]"`
by `"]"`. -/
def replCB : List Char → List Char
  | [] => []
  | [c] => [c]
  | a :: b :: rest =>
      if a = ',' ∧ b = ']' then ']' :: replCB rest
      else a :: replCB (b :: rest)

/-- Whether `",]"` occurs as a substring. -/
def hasCB : List Char → Bool
  | [] => false
  | [_] => false
  | a :: b :: rest => if a = ',' ∧ b = ']' then true else hasCB (b :: rest)

/-- Lines 307-308: `"[" + raw_data.replace("\n", ",") + "]"` followed by
`.replace(",]", "]")` — the framing of a page response into JSON-array
text. -/
def frameTickets (raw : List Char) : List Char :=
  replCB ('[' :: (replaceNlComma raw ++ [']']))

/-- A page response: every newline-delimited fragment is followed by a
newline, as the remote service emits one object per line. -/
def joinedNl : List (List Char) → List Char
  | [] => []
  | l :: ls => l ++ '\n' :: joinedNl ls

/-- The fragments each followed by a comma (the text between the added
brackets before the trailing-comma fixup). -/
def commaJoined : List (List Char) → List Char
  | [] => []
  | l :: ls => l ++ ',' :: commaJoined ls

/-- The body of the serialized JSON array of the given fragments: the
fragments joined by commas, in order.  `'[' :: (interComma lines ++ [']'])`
is the array text whose elements are exactly the per-line fragments. -/
def interComma : List (List Char) → List Char
  | [] => []
  | [l] => l
  | l :: ls => l ++ ',' :: interComma ls

lemma hasCB_cons_cons (a b : Char) (rest : List Char) :
    hasCB (a :: b :: rest) = false ↔ ¬(a = ',' ∧ b = ']') ∧ hasCB (b :: rest) = false := by
  by_cases hab : a = ',' ∧ b = ']'
  · rw [show hasCB (a :: b :: rest) = if a = ',' ∧ b = ']' then true else hasCB (b :: rest)
      from rfl, if_pos hab]
    simp [hab]
  · rw [show hasCB (a :: b :: rest) = if a = ',' ∧ b = ']' then true else hasCB (b :: rest)
      from rfl, if_neg hab]
    simp [hab]

lemma hasCB_append_single : ∀ (l : List Char) (c : Char), hasCB l = false → c ≠ ']' →
    hasCB (l ++ [c]) = false
  | [], c => fun _ _ => rfl
  | [x], c => fun _ hc => by
      rw [show [x] ++ [c] = x :: c :: [] from rfl, hasCB_cons_cons]
      exact ⟨fun hxc => hc hxc.2, rfl⟩
  | x :: y :: l, c => fun h hc => by
      rw [hasCB_cons_cons] at h
      have htail := hasCB_append_single (y :: l) c h.2 hc
      rw [show (y :: l) ++ [c] = y :: (l ++ [c]) from rfl] at htail
      rw [show (x :: y :: l) ++ [c] = x :: y :: (l ++ [c]) from rfl, hasCB_cons_cons]
      exact ⟨h.1, htail⟩

lemma replCB_append_of_clean : ∀ (xs ys : List Char),
    hasCB (xs ++ ys.take 1) = false → replCB (xs ++ ys) = xs ++ replCB ys
  | [], ys => fun _ => rfl
  | [x], ys => fun h => by
      rcases ys with _ | ⟨y, ys'⟩
      · rfl
      · have hxy : ¬ (x = ',' ∧ y = ']') := by
          rw [show [x] ++ (y :: ys').take 1 = x :: y :: [] from rfl, hasCB_cons_cons] at h
          exact h.1
        rw [show [x] ++ (y :: ys') = x :: y :: ys' from rfl]
        rw [show replCB (x :: y :: ys') =
          if x = ',' ∧ y = ']' then ']' :: replCB ys' else x :: replCB (y :: ys') from rfl]
        rw [if_neg hxy]
        rfl
  | x :: x2 :: xs, ys => fun h => by
      rw [show (x :: x2 :: xs) ++ ys.take 1 = x :: x2 :: (xs ++ ys.take 1) from rfl,
        hasCB_cons_cons] at h
      have h2 : hasCB ((x2 :: xs) ++ ys.take 1) = false := by
        rw [show (x2 :: xs) ++ ys.take 1 = x2 :: (xs ++ ys.take 1) from rfl]
        exact h.2
      have hrec := replCB_append_of_clean (x2 :: xs) ys h2
      rw [show (x2 :: xs) ++ ys = x2 :: (xs ++ ys) from rfl] at hrec
      rw [show (x :: x2 :: xs) ++ ys = x :: x2 :: (xs ++ ys) from rfl]
      rw [show replCB (x :: x2 :: (xs ++ ys)) =
        if x = ',' ∧ x2 = ']' then ']' :: replCB (xs ++ ys)
        else x :: replCB (x2 :: (xs ++ ys)) from rfl]
      rw [if_neg h.1, hrec]
      rfl

lemma replaceNlComma_of_no_nl : ∀ (l : List Char), '\n' ∉ l → replaceNlComma l = l
  | [] => fun _ => rfl
  | x :: l => fun h => by
      rw [replaceNlComma, List.map_cons]
      have hx : ¬ x = '\n' := fun hx => h (by rw [hx]; exact List.mem_cons_self _ _)
      rw [if_neg hx]
      rw [show (l.map fun c => if c = '\n' then ',' else c) = replaceNlComma l from rfl]
      rw [replaceNlComma_of_no_nl l (fun hm => h (List.mem_cons_of_mem x hm))]

lemma replaceNlComma_joinedNl : ∀ (lines : List (List Char)),
    (∀ l ∈ lines, '\n' ∉ l) → replaceNlComma (joinedNl lines) = commaJoined lines
  | [] => fun _ => rfl
  | l :: ls => fun h => by
      rw [joinedNl, commaJoined, replaceNlComma, List.map_append, List.map_cons, if_pos rfl]
      rw [show (l.map fun c => if c = '\n' then ',' else c) = replaceNlComma l from rfl]
      rw [replaceNlComma_of_no_nl l (h l (List.mem_cons_self _ _))]
      rw [show ((joinedNl ls).map fun c => if c = '\n' then ',' else c)
        = replaceNlComma (joinedNl ls) from rfl]
      rw [replaceNlComma_joinedNl ls (fun q hq => h q (List.mem_cons_of_mem l hq))]

lemma commaJoined_take_one (l2 : List Char) (ls : List (List Char))
    (h2 : l2.head? ≠ some ']') :
    ∃ c, (commaJoined (l2 :: ls) ++ [']']).take 1 = [c] ∧ c ≠ ']' := by
  rcases l2 with _ | ⟨x, l2'⟩
  · exact ⟨',', rfl, by decide⟩
  · refine ⟨x, rfl, fun hx => h2 ?_⟩
    rw [hx]
    rfl

lemma replCB_commaJoined : ∀ (lines : List (List Char)),
    (∀ l ∈ lines, hasCB l = false ∧ l.head? ≠ some ']') →
    replCB (commaJoined lines ++ [']']) = interComma lines ++ [']']
  | [] => fun _ => rfl
  | [l] => fun h => by
      rw [commaJoined, commaJoined, interComma]
      rw [show (l ++ ',' :: ([] : List Char)) ++ [']'] = l ++ [',', ']'] by
        simp [List.append_assoc]]
      rw [replCB_append_of_clean l [',', ']']
        (hasCB_append_single l ','
          (h l (List.mem_cons_self _ _)).1 (by decide))]
      rfl
  | l :: l2 :: ls => fun h => by
      have hl := h l (List.mem_cons_self _ _)
      have hrest : ∀ q ∈ l2 :: ls, hasCB q = false ∧ q.head? ≠ some ']' :=
        fun q hq => h q (List.mem_cons_of_mem l hq)
      obtain ⟨c, hc1, hc2⟩ := commaJoined_take_one l2 ls
        (hrest l2 (List.mem_cons_self _ _)).2
      have heq : (commaJoined (l :: l2 :: ls)) ++ [']'] =
          (l ++ [',']) ++ (commaJoined (l2 :: ls) ++ [']']) := by
        rw [commaJoined]
        simp [List.append_assoc]
      rw [heq]
      have hcond : hasCB ((l ++ [',']) ++ (commaJoined (l2 :: ls) ++ [']']).take 1)
          = false := by
        rw [hc1]
        exact hasCB_append_single _ c
          (hasCB_append_single l ',' hl.1 (by decide)) hc2
      rw [replCB_append_of_clean _ _ hcond]
      rw [replCB_commaJoined (l2 :: ls) hrest]
      rw [show interComma (l :: l2 :: ls) = l ++ ',' :: interComma (l2 :: ls) from rfl]
      simp [List.append_assoc]

lemma hasCB_short (t : List Char) (ht : t.length ≤ 1) : hasCB ('[' :: t) = false := by
  rcases t with _ | ⟨c, t'⟩
  · rfl
  · rcases t' with _ | ⟨c2, t''⟩
    · rw [hasCB_cons_cons]
      exact ⟨fun hx => by exact absurd hx.1 (by decide), rfl⟩
    · simp at ht

/-- C8, corrected at a concrete input: the global `.replace(",]", "]")`
also rewrites the substring `",]"` inside a fragment, so the framing of a
page whose first object contains `",]"` in a string value is not the JSON
array of the original per-line objects. -/
theorem framing_claim_counterexample :
    frameTickets (joinedNl ["\x7b\"project\":\",]\"\x7d".toList,
        "\x7b\"rowCount\":0\x7d".toList]) ≠
      '[' :: (interComma ["\x7b\"project\":\",]\"\x7d".toList,
        "\x7b\"rowCount\":0\x7d".toList] ++ [']']) := by
  decide

/-- C8 (amended): for every page response of newline-terminated fragments
none of which contains a newline or the two-character substring `",]"` and
none of which begins with `']'` (all true of the service's one-object-per-
line output except for `",]"` occurring inside a JSON string value), the
framing of lines 307-308 yields exactly the JSON-array text whose elements
are the per-line fragments, in order. -/
theorem framing_newline_fragments (lines : List (List Char))
    (h : ∀ l ∈ lines, '\n' ∉ l ∧ hasCB l = false ∧ l.head? ≠ some ']') :
    frameTickets (joinedNl lines) = '[' :: (interComma lines ++ [']']) := by
  rw [frameTickets, replaceNlComma_joinedNl lines (fun l hl => (h l hl).1)]
  have hcond : hasCB (['['] ++ (commaJoined lines ++ [']']).take 1) = false := by
    rw [List.singleton_append]
    refine hasCB_short _ ?_
    rw [List.length_take]
    omega
  have hstep := replCB_append_of_clean ['['] (commaJoined lines ++ [']']) hcond
  rw [List.singleton_append] at hstep
  rw [hstep, replCB_commaJoined lines (fun l hl => ⟨(h l hl).2.1, (h l hl).2.2⟩)]
  rfl

/-- Witness for C8 (amended) on a two-fragment page. -/
theorem framing_newline_fragments_witness :
    frameTickets (joinedNl ["\x7b\"project\":\"a\"\x7d".toList,
        "\x7b\"rowCount\":0\x7d".toList]) =
      '[' :: (interComma ["\x7b\"project\":\"a\"\x7d".toList,
        "\x7b\"rowCount\":0\x7d".toList] ++ [']']) :=
  framing_newline_fragments
    ["\x7b\"project\":\"a\"\x7d".toList, "\x7b\"rowCount\":0\x7d".toList]
    (by decide)
